import Mathlib

/-!
Verification of the GPU compression codecs of this repository against their
natural-language specification.  The definitions below are shallow embeddings
of the CUDA kernels and host functions in `src/unnamed/part_007` (LZ77) and
`src/Sonnet 4.5/compression_lab/src/cuda/e8_lattice.cu` (E8 lattice coder and
arithmetic coder).  Byte buffers are embedded as functions `Nat → Nat`
(index to byte value) together with an explicit size, mirroring the C
signature `(const unsigned char* input, size_t size)`.  Machine integers are
embedded as `Nat`/`Int` with explicit `% 2^w` where wrap-around matters
(the `size_t` subtraction in `findMatches` and the `unsigned int` token
word).  Device float values written by `initE8Roots` are only ever the exact
constants 0, ±1, ±1/2, so they are embedded as rationals.
-/

/-! ## LZ77 (src/unnamed/part_007) -/

/-- `hashFunc` from the source: hash of a 3-byte sequence.
`((a << 10) ^ (b << 5) ^ c) & (HASH_SIZE - 1)` with `HASH_SIZE = 1 << 15`. -/
def hashFunc (a b c : Nat) : Nat :=
  ((a <<< 10) ^^^ (b <<< 5) ^^^ c) &&& 32767

/-- Hash of the 3-byte sequence starting at position `i` of the input. -/
def hashAt (input : Nat → Nat) (i : Nat) : Nat :=
  hashFunc (input i) (input (i + 1)) (input (i + 2))

/-- One iteration of the sequential chain-building loop in `buildHashTable`:
`hashPrev[i] = hashHead[h]; hashHead[h] = i;`.  The state is the pair
`(hashHead, hashPrev)`, both mapping to `Int` because the tables hold C
`int` values with sentinel `-1`. -/
def buildStep (input : Nat → Nat) (st : (Nat → Int) × (Nat → Int)) (i : Nat) :
    (Nat → Int) × (Nat → Int) :=
  (Function.update st.1 (hashAt input i) (i : Int),
   Function.update st.2 i (st.1 (hashAt input i)))

/-- The chain-building loop after processing positions `0, …, n-1`.
Both tables start at `-1` (host `cudaMemset(d_hashHead, 0xFF, …)` and the
kernel's own initialization; `hashPrev` entries are only ever read after
being written, so the `-1` default is never consulted). -/
def buildHashTableN (input : Nat → Nat) (n : Nat) : (Nat → Int) × (Nat → Int) :=
  (List.range n).foldl (buildStep input) (fun _ => -1, fun _ => -1)

/-- `buildHashTable` kernel: the loop `for (i = 0; i + 2 < size; i++)`
processes exactly the positions `i < size - 2`. -/
def buildHashTable (input : Nat → Nat) (size : Nat) : (Nat → Int) × (Nat → Int) :=
  buildHashTableN input (size - 2)

/-- The C expression `idx - pos` where `idx : size_t` and `pos : int`:
the usual arithmetic conversions compute it as an unsigned 64-bit value,
i.e. modulo `2^64`. -/
def sizeTSub (idx : Nat) (pos : Int) : Nat :=
  (((idx : Int) - pos) % 18446744073709551616).toNat

/-- The inner run-length loop of `findMatches`:
`while (len < MAX_MATCH && idx + len < size && input[pos+len] == input[idx+len]) len++`.
The fuel argument encodes the `len < MAX_MATCH` bound: starting from
`len = 0` with fuel `258` the fuel reaches `0` exactly when `len = 258`. -/
def matchLenGo (input : Nat → Nat) (size pos idx : Nat) : Nat → Nat → Nat
  | 0, len => len
  | fuel + 1, len =>
    if idx + len < size ∧ input (pos + len) = input (idx + len) then
      matchLenGo input size pos idx fuel (len + 1)
    else len

/-- Length of the run common to positions `pos` and `idx` (capped at 258). -/
def matchLenAt (input : Nat → Nat) (size pos idx : Nat) : Nat :=
  matchLenGo input size pos idx 258 0

/-- The chain-walking loop of `findMatches`:
`while (pos >= 0 && idx - pos <= WINDOW_SIZE && searchLimit-- > 0)`.
The first argument is `searchLimit` (initially 64), which structurally
bounds the recursion exactly as in the source.  The accumulators are
`bestOff` (C `int`, set to `idx - pos`) and `bestLen`. -/
def findMatchesWalk (input : Nat → Nat) (size : Nat) (hashPrev : Nat → Int)
    (idx : Nat) : Nat → Int → Int → Nat → Int × Nat
  | 0, _, bestOff, bestLen => (bestOff, bestLen)
  | searchLimit + 1, pos, bestOff, bestLen =>
    if 0 ≤ pos ∧ sizeTSub idx pos ≤ 32768 then
      let p := pos.toNat
      let len := matchLenAt input size p idx
      if 3 ≤ len ∧ bestLen < len then
        findMatchesWalk input size hashPrev idx searchLimit (hashPrev p)
          ((idx : Int) - pos) len
      else
        findMatchesWalk input size hashPrev idx searchLimit (hashPrev p)
          bestOff bestLen
    else (bestOff, bestLen)

/-- `findMatches` kernel, one thread: the `(matchOffset[idx], matchLength[idx])`
pair written for position `idx`.  For `idx + 2 ≥ size` the kernel stores
`(0, 0)` (threads with `idx ≥ size` store nothing; we return `(0, 0)` there
too, a value never consulted downstream). -/
def findMatches (input : Nat → Nat) (size : Nat) (hashHead hashPrev : Nat → Int)
    (idx : Nat) : Int × Nat :=
  if size ≤ idx + 2 then (0, 0)
  else findMatchesWalk input size hashPrev idx 64 (hashHead (hashAt input idx)) 0 0

/-- The composed match tables exactly as produced on the device: the
`findMatches` kernel runs over the tables built by `buildHashTable`. -/
def matchTables (input : Nat → Nat) (size : Nat) (idx : Nat) : Int × Nat :=
  findMatches input size (buildHashTable input size).1 (buildHashTable input size).2 idx

/-- `matchOffset[idx]` after the two kernels. -/
def matchOffsetAt (input : Nat → Nat) (size idx : Nat) : Int :=
  (matchTables input size idx).1

/-- `matchLength[idx]` after the two kernels. -/
def matchLengthAt (input : Nat → Nat) (size idx : Nat) : Nat :=
  (matchTables input size idx).2

/-- The match-token word `0x80000000 | ((len - 3) << 16) | off` computed in
32-bit unsigned arithmetic; the C `int` offset is converted to unsigned. -/
def matchWord (len : Nat) (off : Int) : Nat :=
  (2147483648 ||| ((len - 3) <<< 16) ||| (off % 4294967296).toNat) % 4294967296

/-- The greedy emission loop of `encodeTokens`, recorded as a list of
`(cursor, word)` pairs in emission order.  The loop is
`while (i < size) { if (len >= 3) { emit match; i += len } else { emit literal; i++ } }`;
each iteration advances the cursor by at least 1, so fuel `size` (supplied
by `encodeTokens` below) is never exhausted before `i` reaches `size`. -/
def encodeTokensGo (input : Nat → Nat) (mo : Nat → Int) (ml : Nat → Nat)
    (size : Nat) : Nat → Nat → List (Nat × Nat)
  | 0, _ => []
  | fuel + 1, i =>
    if i < size then
      if 3 ≤ ml i then
        (i, matchWord (ml i) (mo i)) :: encodeTokensGo input mo ml size fuel (i + ml i)
      else
        (i, input i) :: encodeTokensGo input mo ml size fuel (i + 1)
    else []

/-- `encodeTokens` kernel (single thread): cursor/word trace of the loop. -/
def encodeTokens (input : Nat → Nat) (mo : Nat → Int) (ml : Nat → Nat)
    (size : Nat) : List (Nat × Nat) :=
  encodeTokensGo input mo ml size size 0

/-- The LZ77 token stream produced by the full device pipeline
(`buildHashTable`; `findMatches`; `encodeTokens`): the 32-bit words written
to `output[0 .. *outputPos)`. -/
def lzTokens (input : Nat → Nat) (size : Nat) : List Nat :=
  (encodeTokens input (matchOffsetAt input size) (matchLengthAt input size) size).map
    Prod.snd

/-- Modelled from the spec: byte-at-a-time match copy of the conceptual
LZ77 decoder (the source provides no decoder).  A match copies `len` bytes
one at a time starting `off` bytes back in the already-decoded output, so
self-overlapping copies replicate earlier bytes as the output grows. -/
def copyMatchGo (off : Nat) : Nat → List Nat → List Nat
  | 0, out => out
  | n + 1, out => copyMatchGo off n (out ++ [out.getD (out.length - off) 0])

/-- Modelled from the spec: the conceptual decoder of the token stream
(§4.2 wire format, §8 round-trip law) — the source implements only the
forward encoder.  A word with bit 31 set is a match token packing
`length - 3` in bits 30–16 and `offset` in bits 15–0; any other word is a
literal byte.  A match is decodable only when `1 ≤ offset ≤` the number of
bytes already decoded ("copied from `offset` bytes back"); otherwise the
stream is not a valid encoding of anything and decoding fails. -/
def lzDecodeGo : List Nat → List Nat → Option (List Nat)
  | [], out => some out
  | w :: ws, out =>
    if w < 2147483648 then lzDecodeGo ws (out ++ [w])
    else
      let len := ((w >>> 16) &&& 32767) + 3
      let off := w &&& 65535
      if 1 ≤ off ∧ off ≤ out.length then lzDecodeGo ws (copyMatchGo off len out)
      else none

/-- Modelled from the spec: decode a whole token stream from an empty
output buffer. -/
def lzDecode (ws : List Nat) : Option (List Nat) :=
  lzDecodeGo ws []

/-- Number of spans of the emitted token list that cover input position `p`:
the token emitted at cursor `c` covers `[c, c + len)` when a match of
length `len ≥ 3` was taken there and `[c, c + 1)` otherwise (the cursor
advance of the loop). -/
def coverCount (ml : Nat → Nat) (p : Nat) : List (Nat × Nat) → Nat
  | [] => 0
  | e :: es =>
    (if e.1 ≤ p ∧ p < e.1 + (if 3 ≤ ml e.1 then ml e.1 else 1) then 1 else 0) +
      coverCount ml p es

/-- `numTokens * sizeof(unsigned int)`: the compressed byte size computed by
the `lz77Compress` host function. -/
def lz77CompressedBytes (input : Nat → Nat) (size : Nat) : Nat :=
  4 * (lzTokens input size).length

/-- Host-side output handling of `lz77Compress`: the device data is copied
out only when it fits in the caller's buffer (`compressedBytes <= *outputSize`),
and `*outputSize` is set to the computed size on every path. -/
def lz77CompressHost (input : Nat → Nat) (size cap : Nat) : Option (List Nat) × Nat :=
  (if lz77CompressedBytes input size ≤ cap then some (lzTokens input size) else none,
   lz77CompressedBytes input size)

/-! ## Arithmetic coder (e8_lattice.cu, second unit: countFrequencies,
buildCDF, encodeBlocks, arithmeticCompress) -/

/-- `freqBlocks = (inputSize + BLOCK_SIZE - 1) / BLOCK_SIZE` with
`BLOCK_SIZE = 256`: the grid dimension of the `countFrequencies` launch. -/
def gridDimF (size : Nat) : Nat :=
  (size + 255) / 256

/-- `stride = blockDim.x * gridDim.x`: the total number of workers of the
grid-stride loop in `countFrequencies`. -/
def strideF (size : Nat) : Nat :=
  gridDimF size * 256

/-- Per-worker count of symbol `s`: worker `w` (global thread index) visits
exactly the positions `i = w, w + stride, w + 2·stride, … < size`, i.e. the
`i < size` with `i % stride = w`. -/
def workerCount (input : Nat → Nat) (size w s : Nat) : Nat :=
  ((Finset.range size).filter (fun i => i % strideF size = w ∧ input i = s)).card

/-- Per-block shared-memory histogram entry for symbol `s`: the threads
`b·256 + t`, `t < 256`, of block `b` accumulate into `localFreq[s]` with
atomic adds (commutative, so the total is the sum of per-thread counts). -/
def blockLocalFreq (input : Nat → Nat) (size b s : Nat) : Nat :=
  ∑ t ∈ Finset.range 256, workerCount input size (b * 256 + t) s

/-- What block `b` atomically adds into `globalFreq[s]`: the merge loop
skips zero entries (`if (localFreq[i] > 0)`), which contributes the same
amount either way. -/
def mergeContrib (input : Nat → Nat) (size b s : Nat) : Nat :=
  if 0 < blockLocalFreq input size b s then blockLocalFreq input size b s else 0

/-- `globalFreq[s]` after the blocks merged their local histograms in some
arbitrary interleaving `order` of atomic adds (addition is commutative and
associative, so any order of the per-block contributions is a permutation
of the block list). -/
def globalFreqMerged (input : Nat → Nat) (size : Nat) (order : List Nat) (s : Nat) : Nat :=
  (order.map (fun b => mergeContrib input size b s)).sum

/-- The sequential byte histogram: number of occurrences of `s` in the input. -/
def histF (input : Nat → Nat) (size s : Nat) : Nat :=
  ((Finset.range size).filter (fun i => input i = s)).card

/-- The frequency table consumed by `buildCDF`/`encodeBlocks`: the merged
global histogram (canonical block order; any order gives the same table). -/
def arithFreq (input : Nat → Nat) (size : Nat) : Nat → Nat :=
  globalFreqMerged input size (List.range (gridDimF size))

/-- One round of the scan loop in `buildCDF` with offset `o`: every thread
`tid` with `tid >= offset && tid < ALPHABET_SIZE` reads `temp[tid - offset]`
(all reads happen before all writes, separated by `__syncthreads()`), then
adds it to its own slot. -/
def scanRound (o : Nat) (t : Nat → Nat) : Nat → Nat :=
  fun tid => if o ≤ tid ∧ tid < 256 then t tid + t (tid - o) else t tid

/-- The full scan: `for (offset = 1; offset < ALPHABET_SIZE; offset *= 2)`,
i.e. offsets 1, 2, 4, …, 128 in order. -/
def scanAll (f : Nat → Nat) : Nat → Nat :=
  scanRound 128 (scanRound 64 (scanRound 32 (scanRound 16
    (scanRound 8 (scanRound 4 (scanRound 2 (scanRound 1 f)))))))

/-- The table written by `buildCDF`:
`cdf[tid] = (tid == 0) ? 0 : temp[tid - 1]` for `tid < 256` (the kernel has
exactly 256 threads, so no other entry exists). -/
def buildCDF (f : Nat → Nat) : Nat → Nat :=
  fun tid => if tid = 0 then 0 else scanAll f (tid - 1)

/-- The CDF used by `arithmeticCompress`: `buildCDF` applied to the merged
frequency table. -/
def arithCDF (input : Nat → Nat) (size : Nat) : Nat → Nat :=
  buildCDF (arithFreq input size)

/-- The `total` argument of the `buildCDF` and `encodeBlocks` launches: the
host passes `inputSize` (it plays the role of `CDF[256]`, the upper bound of
symbol 255's slice in `encodeBlocks`). -/
def arithTotal (size : Nat) : Nat :=
  size

/-- `chunkSize` of `arithmeticCompress`. -/
def chunkSizeC : Nat := 4096

/-- `numChunks = (inputSize + chunkSize - 1) / chunkSize`. -/
def numChunksC (size : Nat) : Nat :=
  (size + 4095) / 4096

/-- `start = blockId * chunkSize` in `encodeBlocks`. -/
def chunkStartC (b : Nat) : Nat :=
  b * 4096

/-- `end = min(start + chunkSize, (size_t)(numChunks * chunkSize))` in
`encodeBlocks`: the upper bound of the per-chunk narrowing loop
`for (i = start; i < end; i++) { symbol = input[i]; … }`. -/
def chunkEndC (size b : Nat) : Nat :=
  min (chunkStartC b + 4096) (numChunksC size * 4096)

/-- The set of input indices read by chunk `b` of `encodeBlocks`. -/
def chunkReadIndices (size b : Nat) : Finset Nat :=
  Finset.Ico (chunkStartC b) (chunkEndC size b)

/-- Host-side output handling of `arithmeticCompress`, as a function of the
per-chunk output lengths read back from the device: `totalOutput` is their
sum, the compressed data is copied out only when
`totalOutput > 0 && totalOutput <= *outputSize`, and `*outputSize` is set to
`totalOutput` on both paths. -/
def arithmeticCompressHost (outputLengths : List Nat) (cap : Nat) : Bool × Nat :=
  (if 0 < outputLengths.sum ∧ outputLengths.sum ≤ cap then true else false,
   outputLengths.sum)

/-! ## E8 lattice coder (e8_lattice.cu, first unit) -/

/-- The inner loop of the type-A pair-index search in `initE8Roots`:
`for (j = i + 1; j < 8 && remaining >= 4; j++) { remaining -= 4;
if (remaining < 0) pairIdx = i*8 + j; }`.  State is `(pairIdx, remaining)`;
`remaining` is a C `int`. -/
def pairInner (i : Nat) : Nat → Nat × Int → Nat × Int
  | 0, st => st
  | fuel + 1, (pairIdx, remaining) =>
    if 4 ≤ remaining then
      let remaining' := remaining - 4
      let pairIdx' := if remaining' < 0 then i * 8 + (8 - (fuel + 1)) else pairIdx
      pairInner i fuel (pairIdx', remaining')
    else (pairIdx, remaining)

/-- The outer loop `for (i = 0; i < 8 && pairIdx == 0; i++)` running the
inner loop for each `i`; fuel `8 - i` drives the recursion (so
`i = 8 - (fuel + 1)` and the inner loop over `j = i+1, …, 7` has
`7 - i = fuel` iterations, with `j = 8 - (innerFuel + 1)`), and the loop
guard `pairIdx == 0` is tested as in the source. -/
def pairOuter : Nat → Nat × Int → Nat × Int
  | 0, st => st
  | fuel + 1, (pairIdx, remaining) =>
    if pairIdx = 0 then
      pairOuter fuel (pairInner (8 - (fuel + 1)) fuel (pairIdx, remaining))
    else (pairIdx, remaining)

/-- `pairIdx` as computed by `initE8Roots` for type-A thread `tid`
(`remaining` starts at `tid`). -/
def pairIdxOf (tid : Nat) : Nat :=
  (pairOuter 8 (0, (tid : Int))).1

/-- The sign-pattern loop of the type-B branch:
`for (b = 0; b < 8; b++) { bit = (maskIdx >> b) & 1; signPattern |= bit << b; }`. -/
def signPatternOf (maskIdx : Nat) : Nat :=
  (List.range 8).foldl (fun sp b => sp ||| (((maskIdx >>> b) &&& 1) <<< b)) 0

/-- The value `initE8Roots` writes at coordinate `d` of root slot `tid`
(float values are exactly 0, ±1, ±1/2, embedded as rationals).  Type A
(`tid < 112`): all coordinates are zeroed, then coordinate
`i = (pairIdx / 8) % 8` is set, then coordinate `j = pairIdx % 8`
(the later write wins when `i = j`).  Type B (`112 ≤ tid < 240`):
coordinate `d` gets `-1/2` when bit `d` of the sign pattern is set, else
`1/2` (`mkRat 1 2` is exactly the float constant `0.5f`).  Threads
`tid ≥ 240` write nothing (the guard below). -/
def rootVal (tid d : Nat) : ℚ :=
  if tid < 112 then
    let p := pairIdxOf tid
    let i := (p / 8) % 8
    let j := p % 8
    let s1 : ℚ := if (tid % 4) &&& 1 ≠ 0 then 1 else -1
    let s2 : ℚ := if (tid % 4) &&& 2 ≠ 0 then 1 else -1
    if d = j then s2 else if d = i then s1 else 0
  else if tid < 240 then
    let idx := tid - 112
    let maskIdx := idx / 2
    let sp := signPatternOf maskIdx
    if (sp >>> d) &&& 1 ≠ 0 then -(mkRat 1 2) else mkRat 1 2
  else 0

/-- The `initE8Roots` kernel as a transformation of the flat
`roots[E8_ROOTS * E8_DIM]` array (functions from flat index to value):
thread `tid < 240` overwrites slots `tid*8 + d`, `d < 8`, with pure
functions of `tid`; all other state is untouched. -/
def initE8Roots (init : Nat → ℚ) : Nat → ℚ :=
  fun k => if k < 1920 then rootVal (k / 8) (k % 8) else init k

/-- `numBlocks = paddedSize / BLOCK_BYTES` with
`paddedSize = ((inputSize + 63) / 64) * 64`. -/
def e8NumBlocks (size : Nat) : Nat :=
  (size + 63) / 64

/-- `outputBytes = sizeof(size_t) + numBlocks + numBlocks * E8_DIM *
sizeof(unsigned short)` computed by `e8LatticeCompress`. -/
def e8OutputBytes (size : Nat) : Nat :=
  8 + e8NumBlocks size + e8NumBlocks size * 8 * 2

/-- Host-side output handling of `e8LatticeCompress`: the header, root
indices and residuals are written only when `outputBytes <= *outputSize`;
`*outputSize` is set to `outputBytes` unconditionally afterwards. -/
def e8LatticeCompressHost (size cap : Nat) : Bool × Nat :=
  (if e8OutputBytes size ≤ cap then true else false, e8OutputBytes size)

/-- The §8 scenario input: the 4-byte pattern "ABCD" (bytes 65, 66, 67, 68)
repeated 1000 times, i.e. 4000 bytes. -/
def abcdInput : Nat → Nat :=
  fun i =>
    if i % 4 = 0 then 65 else if i % 4 = 1 then 66 else if i % 4 = 2 then 67 else 68

/-! ## Hash-chain invariants (buildHashTable) -/

/-- Unfolding the chain-building loop by its last iteration. -/
theorem buildHashTableN_succ (input : Nat → Nat) (n : Nat) :
    buildHashTableN input (n + 1) = buildStep input (buildHashTableN input n) n := by
  unfold buildHashTableN
  rw [List.range_succ, List.foldl_append, List.foldl_cons, List.foldl_nil]

/-- After processing positions `0, …, n-1`, every hash head is `< n`
(initially `-1`, and each insertion stores the current position). -/
theorem head_lt (input : Nat → Nat) : ∀ n h, (buildHashTableN input n).1 h < (n : Int) := by
  intro n
  induction n with
  | zero => intro h; simp [buildHashTableN]
  | succ n ih =>
    intro h
    rw [buildHashTableN_succ]
    unfold buildStep
    simp only [Function.update_apply]
    split
    · omega
    · have := ih h
      omega

/-- After processing positions `0, …, n-1`, the head of hash `h` is at
least any processed position whose 3-byte hash is `h` (each insertion only
moves heads to later positions). -/
theorem head_ge (input : Nat → Nat) :
    ∀ (n j : Nat), j < n → (j : Int) ≤ (buildHashTableN input n).1 (hashAt input j) := by
  intro n
  induction n with
  | zero => intro j hj; omega
  | succ n ih =>
    intro j hj
    rw [buildHashTableN_succ]
    unfold buildStep
    simp only [Function.update_apply]
    split
    · omega
    · rename_i hne
      have hjn : j ≠ n := by
        intro hEq; exact hne (by rw [hEq])
      exact ih j (by omega)

/-- C8 invariant: every back-link points strictly earlier.  For each
position `i` inserted into the index (`i` processed by the loop), the value
written to `hashPrev[i]` is the head at insertion time, which is `< i`. -/
theorem prev_lt (input : Nat → Nat) :
    ∀ (n i : Nat), i < n → (buildHashTableN input n).2 i < (i : Int) := by
  intro n
  induction n with
  | zero => intro i hi; omega
  | succ n ih =>
    intro i hi
    rw [buildHashTableN_succ]
    unfold buildStep
    simp only [Function.update_apply]
    split
    · rename_i hEq
      rw [hEq]
      exact head_lt input n _
    · rename_i hne
      exact ih i (by omega)

/-! ## Claim theorems for the LZ77 coder -/

/-- C8: after hash-chain construction, every back-link points strictly
earlier: `hashPrev[i] < i` for every position `i` inserted into the index
(i.e. with `i + 2 < size`), so following back-links yields strictly
decreasing positions terminating at the sentinel `-1`. -/
theorem hash_prev_strictly_decreasing (input : Nat → Nat) (size i : Nat)
    (h : i + 2 < size) : (buildHashTable input size).2 i < (i : Int) := by
  unfold buildHashTable
  exact prev_lt input (size - 2) i (by omega)

/-- Witness for C8 at the concrete input of three zero bytes, position 0. -/
theorem hash_prev_strictly_decreasing_witness :
    (buildHashTable (fun _ => 0) 3).2 0 < (0 : Int) :=
  hash_prev_strictly_decreasing (fun _ => 0) 3 0 (by decide)

/-- The chain walk of `findMatches` exits immediately when the starting
chain entry lies strictly after `idx` (and within any realistic distance):
the unsigned computation of `idx - pos` wraps around and exceeds the
window, so the loop condition fails on the first test. -/
theorem findMatchesWalk_exit (input : Nat → Nat) (size : Nat)
    (hashPrev : Nat → Int) (idx sl : Nat) (pos bestOff : Int) (bestLen : Nat)
    (h1 : (idx : Int) < pos) (h2 : pos - idx ≤ 18446744073709551616 - 32769) :
    findMatchesWalk input size hashPrev idx sl pos bestOff bestLen = (bestOff, bestLen) := by
  cases sl with
  | zero => rfl
  | succ sl =>
    have hcond : ¬(0 ≤ pos ∧ sizeTSub idx pos ≤ 32768) := by
      unfold sizeTSub
      intro hc
      omega
    simp only [findMatchesWalk, if_neg hcond]

/-- C3 (refuted): on "ABCD" × 1000 the match finder records NO match at
position 4, the start of the second repetition: the hash head for the
3-byte sequence at position 4 points at a LATER occurrence of the same
hash (heads are built over the whole input before matching), so the
window check `idx - pos <= WINDOW_SIZE` underflows and the chain walk
exits with `bestLen = 0`. -/
theorem lz77_no_match_at_second_repetition_abcd :
    matchLengthAt abcdInput 4000 4 = 0 := by
  have hhash : hashAt abcdInput 8 = hashAt abcdInput 4 := by decide
  have htbl : buildHashTable abcdInput 4000 = buildHashTableN abcdInput 3998 := rfl
  have hge : (8 : Int) ≤ (buildHashTable abcdInput 4000).1 (hashAt abcdInput 4) := by
    have h := head_ge abcdInput 3998 8 (by omega)
    rw [hhash] at h
    rw [htbl]
    exact_mod_cast h
  have hlt : (buildHashTable abcdInput 4000).1 (hashAt abcdInput 4) < (3998 : Int) := by
    have h := head_lt abcdInput 3998 (hashAt abcdInput 4)
    rw [htbl]
    exact_mod_cast h
  unfold matchLengthAt matchTables findMatches
  rw [if_neg (by omega : ¬ (4000 ≤ 4 + 2))]
  rw [findMatchesWalk_exit abcdInput 4000 (buildHashTable abcdInput 4000).2 4 64
        ((buildHashTable abcdInput 4000).1 (hashAt abcdInput 4)) 0 0
        (by omega) (by omega)]

/-- C1 (refuted): the token stream of the 3-byte input `[0, 0, 0]` is a
single match token with offset 0 (a self-match: the hash head of position 0
is position 0 itself, and the run-length comparison of a position against
itself always succeeds), which no conceptual decode can reproduce — the
decoder rejects an offset of 0 ("`offset` bytes back" with nothing behind),
so the round-trip fails. -/
theorem lz77_roundtrip_fails_on_three_zeros :
    lzTokens (fun _ => 0) 3 = [2147483648] ∧
    lzDecode (lzTokens (fun _ => 0) 3) = none := by
  decide

/-! ## Claim theorems for the token-emission loop (C10) -/

/-- Each iteration of the emission loop emits one token and advances, so
the number of tokens is bounded by the remaining input length. -/
theorem encodeTokensGo_length_le (input : Nat → Nat) (mo : Nat → Int)
    (ml : Nat → Nat) (size : Nat) :
    ∀ fuel i, (encodeTokensGo input mo ml size fuel i).length ≤ size - i := by
  intro fuel
  induction fuel with
  | zero => intro i; simp [encodeTokensGo]
  | succ fuel ih =>
    intro i
    by_cases h1 : i < size
    · by_cases h2 : 3 ≤ ml i
      · simp only [encodeTokensGo, if_pos h1, if_pos h2, List.length_cons]
        have := ih (i + ml i)
        omega
      · simp only [encodeTokensGo, if_pos h1, if_neg h2, List.length_cons]
        have := ih (i + 1)
        omega
    · simp [encodeTokensGo, if_neg h1]

/-- Every token is emitted at a cursor position at least the starting one. -/
theorem encodeTokensGo_start_ge (input : Nat → Nat) (mo : Nat → Int)
    (ml : Nat → Nat) (size : Nat) :
    ∀ fuel i e, e ∈ encodeTokensGo input mo ml size fuel i → i ≤ e.1 := by
  intro fuel
  induction fuel with
  | zero => intro i e he; simp [encodeTokensGo] at he
  | succ fuel ih =>
    intro i e he
    by_cases h1 : i < size
    · by_cases h2 : 3 ≤ ml i
      · simp only [encodeTokensGo, if_pos h1, if_pos h2, List.mem_cons] at he
        rcases he with he | he
        · rw [he]
        · have := ih (i + ml i) e he
          omega
      · simp only [encodeTokensGo, if_pos h1, if_neg h2, List.mem_cons] at he
        rcases he with he | he
        · rw [he]
        · have := ih (i + 1) e he
          omega
    · simp [encodeTokensGo, if_neg h1] at he

/-- A position before every emitted cursor is covered by no token. -/
theorem coverCount_eq_zero (ml : Nat → Nat) (p : Nat) :
    ∀ l : List (Nat × Nat), (∀ e ∈ l, p < e.1) → coverCount ml p l = 0 := by
  intro l
  induction l with
  | nil => intro _; rfl
  | cons e es ih =>
    intro h
    have hp := h e (List.mem_cons_self e es)
    simp only [coverCount]
    rw [if_neg (by omega), ih (fun e' he' => h e' (List.mem_cons_of_mem _ he'))]

/-- The greedy emission loop covers each remaining input position exactly
once: the token taken at the cursor covers `[cursor, cursor + advance)` and
the loop resumes at `cursor + advance`. -/
theorem encodeTokensGo_cover (input : Nat → Nat) (mo : Nat → Int)
    (ml : Nat → Nat) (size : Nat) :
    ∀ fuel i p, size ≤ i + fuel → i ≤ p → p < size →
      coverCount ml p (encodeTokensGo input mo ml size fuel i) = 1 := by
  intro fuel
  induction fuel with
  | zero => intro i p h hip hps; omega
  | succ fuel ih =>
    intro i p h hip hps
    have h1 : i < size := by omega
    by_cases h2 : 3 ≤ ml i
    · simp only [encodeTokensGo, if_pos h1, if_pos h2, coverCount]
      by_cases hcov : i ≤ p ∧ p < i + ml i
      · rw [if_pos hcov, coverCount_eq_zero]
        intro e he
        have hs := encodeTokensGo_start_ge input mo ml size fuel (i + ml i) e he
        omega
      · rw [if_neg hcov]
        have hnext : i + ml i ≤ p := by omega
        rw [ih (i + ml i) p (by omega) hnext hps]
    · simp only [encodeTokensGo, if_pos h1, if_neg h2, coverCount]
      by_cases hcov : i ≤ p ∧ p < i + 1
      · rw [if_pos hcov, coverCount_eq_zero]
        intro e he
        have hs := encodeTokensGo_start_ge input mo ml size fuel (i + 1) e he
        omega
      · rw [if_neg hcov]
        have hnext : i + 1 ≤ p := by omega
        rw [ih (i + 1) p (by omega) hnext hps]

/-- C10: for any match tables whose recorded lengths are below 3 or between
3 and 258, the greedy emission loop strictly advances each iteration (by
the match length when ≥ 3, else by 1), hence it emits at most `size` tokens
(terminating after at most `size` iterations) and every input position is
covered by exactly one emitted token. -/
theorem token_emission_terminates_and_covers (input : Nat → Nat)
    (mo : Nat → Int) (ml : Nat → Nat) (size : Nat)
    (_hml : ∀ i, i < size → ml i < 3 ∨ (3 ≤ ml i ∧ ml i ≤ 258)) :
    (encodeTokens input mo ml size).length ≤ size ∧
    ∀ p, p < size → coverCount ml p (encodeTokens input mo ml size) = 1 := by
  constructor
  · have h := encodeTokensGo_length_le input mo ml size size 0
    simpa [encodeTokens] using h
  · intro p hp
    exact encodeTokensGo_cover input mo ml size size 0 p (by omega) (by omega) hp

/-- Witness for C10 at a concrete one-byte input with an all-zero table. -/
theorem token_emission_terminates_and_covers_witness :
    (encodeTokens (fun _ => 0) (fun _ => 0) (fun _ => 0) 1).length ≤ 1 ∧
    ∀ p, p < 1 →
      coverCount (fun _ => 0) p (encodeTokens (fun _ => 0) (fun _ => 0) (fun _ => 0) 1) = 1 :=
  token_emission_terminates_and_covers (fun _ => 0) (fun _ => 0) (fun _ => 0) 1
    (fun _ _ => Or.inl (Nat.succ_pos 2))

/-! ## Claim theorem for truncation handling (C7) -/

/-- C7: for each of the three compress entry points, when the destination
capacity is smaller than the computed compressed size, the host copies
nothing to the destination (so nothing is written at or past the capacity)
and reports the true required size through `*outputSize`. -/
theorem truncation_reports_required_size (input : Nat → Nat) (size : Nat)
    (outputLengths : List Nat) (capL capE capA : Nat)
    (hL : capL < lz77CompressedBytes input size)
    (hE : capE < e8OutputBytes size)
    (hA : capA < outputLengths.sum) :
    (lz77CompressHost input size capL).1 = none ∧
    (lz77CompressHost input size capL).2 = lz77CompressedBytes input size ∧
    (e8LatticeCompressHost size capE).1 = false ∧
    (e8LatticeCompressHost size capE).2 = e8OutputBytes size ∧
    (arithmeticCompressHost outputLengths capA).1 = false ∧
    (arithmeticCompressHost outputLengths capA).2 = outputLengths.sum := by
  unfold lz77CompressHost e8LatticeCompressHost arithmeticCompressHost
  refine ⟨?_, rfl, ?_, rfl, ?_, rfl⟩
  · show (if lz77CompressedBytes input size ≤ capL then _ else _) = _
    rw [if_neg (by omega)]
  · show (if e8OutputBytes size ≤ capE then _ else _) = _
    rw [if_neg (by omega)]
  · show (if 0 < outputLengths.sum ∧ outputLengths.sum ≤ capA then _ else _) = _
    rw [if_neg (by omega)]

/-- Witness for C7: a one-byte input with each capacity one byte short of
the required size (LZ77 needs 4 bytes, E8 needs 25, the arithmetic chunk
lengths sum to 8). -/
theorem truncation_reports_required_size_witness :
    (lz77CompressHost (fun _ => 0) 1 3).1 = none ∧
    (lz77CompressHost (fun _ => 0) 1 3).2 = lz77CompressedBytes (fun _ => 0) 1 ∧
    (e8LatticeCompressHost 1 24).1 = false ∧
    (e8LatticeCompressHost 1 24).2 = e8OutputBytes 1 ∧
    (arithmeticCompressHost [8] 7).1 = false ∧
    (arithmeticCompressHost [8] 7).2 = [8].sum :=
  truncation_reports_required_size (fun _ => 0) 1 [8] 3 24 7 (by decide) (by decide)
    (by decide)

/-! ## Frequency counting (countFrequencies) -/

/-- Bridging list sums over `List.range` to `Finset.range` sums. -/
theorem list_range_map_sum (g : Nat → Nat) :
    ∀ n, ((List.range n).map g).sum = ∑ b ∈ Finset.range n, g b := by
  intro n
  induction n with
  | zero => simp
  | succ n ih =>
    rw [List.range_succ, List.map_append, List.sum_append, Finset.sum_range_succ, ih]
    simp

/-- Reindexing the double sum over blocks and threads as a single sum over
global worker indices. -/
theorem sum_blocks_eq_sum_workers (input : Nat → Nat) (size s : Nat) :
    ∀ G, ∑ b ∈ Finset.range G, ∑ t ∈ Finset.range 256, workerCount input size (b * 256 + t) s
      = ∑ w ∈ Finset.range (G * 256), workerCount input size w s := by
  intro G
  induction G with
  | zero => simp
  | succ G ih =>
    rw [Finset.sum_range_succ, ih, show (G + 1) * 256 = G * 256 + 256 by ring,
      Finset.sum_range_add]

/-- Partitioning the occurrences of a symbol among the grid-stride workers:
the per-worker counts sum to the sequential histogram entry. -/
theorem sum_workerCount_eq_hist (input : Nat → Nat) (size s : Nat) :
    ∑ w ∈ Finset.range (strideF size), workerCount input size w s
      = histF input size s := by
  have H : ∀ x ∈ (Finset.range size).filter (fun i => input i = s),
      x % strideF size ∈ Finset.range (strideF size) := by
    intro x hx
    have hxs : x < size := Finset.mem_range.mp (Finset.mem_filter.mp hx).1
    have hpos : 0 < strideF size := by
      unfold strideF gridDimF
      omega
    exact Finset.mem_range.mpr (Nat.mod_lt _ hpos)
  unfold histF
  rw [Finset.card_eq_sum_card_fiberwise H]
  apply Finset.sum_congr rfl
  intro w _
  unfold workerCount
  rw [Finset.filter_filter]
  exact congrArg Finset.card (Finset.filter_congr fun x _ => and_comm)

/-- The merged global frequency table equals the sequential histogram for
every interleaving of the per-block atomic merges. -/
theorem globalFreqMerged_eq_hist (input : Nat → Nat) (size : Nat)
    (order : List Nat) (s : Nat) (h : order.Perm (List.range (gridDimF size))) :
    globalFreqMerged input size order s = histF input size s := by
  unfold globalFreqMerged
  rw [(h.map (fun b => mergeContrib input size b s)).sum_eq, list_range_map_sum]
  have hmc : ∀ b, mergeContrib input size b s = blockLocalFreq input size b s := by
    intro b
    unfold mergeContrib
    split <;> omega
  rw [Finset.sum_congr rfl (fun b _ => hmc b)]
  unfold blockLocalFreq
  rw [sum_blocks_eq_sum_workers]
  exact sum_workerCount_eq_hist input size s

/-- C5: after the frequency-counting stage the global table equals the
sequential byte histogram for every merge order, and on 4096 zero bytes
the table has `freq[0] = 4096` and all other entries 0. -/
theorem frequency_merge_order_independent (input : Nat → Nat) (size : Nat)
    (order : List Nat) (h : order.Perm (List.range (gridDimF size))) :
    (∀ s, globalFreqMerged input size order s = histF input size s) ∧
    arithFreq (fun _ => 0) 4096 0 = 4096 ∧
    (∀ s, s ≠ 0 → arithFreq (fun _ => 0) 4096 s = 0) := by
  refine ⟨fun s => globalFreqMerged_eq_hist input size order s h, ?_, ?_⟩
  · unfold arithFreq
    rw [globalFreqMerged_eq_hist _ _ _ _ (List.Perm.refl _)]
    unfold histF
    simp
  · intro s hs
    unfold arithFreq
    rw [globalFreqMerged_eq_hist _ _ _ _ (List.Perm.refl _)]
    unfold histF
    rw [Finset.filter_false_of_mem fun i _ => fun h0 => hs h0.symm]
    exact Finset.card_empty

/-- Witness for C5 at a one-byte input with the canonical merge order. -/
theorem frequency_merge_order_independent_witness :
    (∀ s, globalFreqMerged (fun _ => 0) 1 (List.range (gridDimF 1)) s
        = histF (fun _ => 0) 1 s) ∧
    arithFreq (fun _ => 0) 4096 0 = 4096 ∧
    (∀ s, s ≠ 0 → arithFreq (fun _ => 0) 4096 s = 0) :=
  frequency_merge_order_independent (fun _ => 0) 1 (List.range (gridDimF 1))
    (List.Perm.refl _)

/-! ## CDF construction (buildCDF) -/

/-- One scan round doubles the summation window: if `t` holds window-`o`
suffix sums of `f`, then `scanRound o t` holds window-`2o` suffix sums. -/
theorem scanRound_window (f t : Nat → Nat) (o w : Nat) (hw : w = o + o)
    (ht : ∀ tid, tid < 256 → t tid = ∑ j ∈ Finset.Ico (tid + 1 - o) (tid + 1), f j) :
    ∀ tid, tid < 256 →
      scanRound o t tid = ∑ j ∈ Finset.Ico (tid + 1 - w) (tid + 1), f j := by
  intro tid htid
  unfold scanRound
  by_cases hle : o ≤ tid
  · rw [if_pos ⟨hle, htid⟩, ht tid htid, ht (tid - o) (by omega)]
    rw [show tid - o + 1 - o = tid + 1 - w by omega, show tid - o + 1 = tid + 1 - o by omega]
    rw [add_comm]
    exact Finset.sum_Ico_consecutive f (by omega) (by omega)
  · rw [if_neg (by omega : ¬(o ≤ tid ∧ tid < 256)), ht tid htid]
    rw [show tid + 1 - o = tid + 1 - w by omega]

/-- The eight rounds of the `buildCDF` scan compute the inclusive prefix
sums of the frequency table. -/
theorem scanAll_eq (f : Nat → Nat) :
    ∀ tid, tid < 256 → scanAll f tid = ∑ j ∈ Finset.range (tid + 1), f j := by
  have h1 : ∀ tid, tid < 256 →
      f tid = ∑ j ∈ Finset.Ico (tid + 1 - 1) (tid + 1), f j := by
    intro tid _
    rw [show tid + 1 - 1 = tid by omega, Finset.sum_Ico_eq_sum_range]
    simp
  have h2 := scanRound_window f f 1 2 (by omega) h1
  have h4 := scanRound_window f _ 2 4 (by omega) h2
  have h8 := scanRound_window f _ 4 8 (by omega) h4
  have h16 := scanRound_window f _ 8 16 (by omega) h8
  have h32 := scanRound_window f _ 16 32 (by omega) h16
  have h64 := scanRound_window f _ 32 64 (by omega) h32
  have h128 := scanRound_window f _ 64 128 (by omega) h64
  have h256 := scanRound_window f _ 128 256 (by omega) h128
  intro tid htid
  have h := h256 tid htid
  rw [show tid + 1 - 256 = 0 by omega] at h
  rw [Finset.range_eq_Ico]
  exact h

/-- C4: for every non-empty input of bytes, the CDF built by `buildCDF`
from the merged frequency table is the exclusive prefix sum of the 256
frequency entries (`CDF[0] = 0`, `CDF[s] = ∑_{t<s} freq[t]`, hence
non-decreasing), and the `total` parameter passed by the host — playing the
role of `CDF[256]` in `encodeBlocks` — equals the input length, which is
also the total mass of the frequency table. -/
theorem cdf_exclusive_prefix_sum (input : Nat → Nat) (size : Nat)
    (_hsz : 0 < size) (hb : ∀ i, input i < 256) :
    arithCDF input size 0 = 0 ∧
    (∀ s, s < 256 → arithCDF input size s = ∑ t ∈ Finset.range s, arithFreq input size t) ∧
    (∀ s, s + 1 < 256 → arithCDF input size s ≤ arithCDF input size (s + 1)) ∧
    arithTotal size = size ∧
    (∑ t ∈ Finset.range 256, arithFreq input size t = size) := by
  have hform : ∀ s, s < 256 →
      arithCDF input size s = ∑ t ∈ Finset.range s, arithFreq input size t := by
    intro s hs
    unfold arithCDF buildCDF
    by_cases h0 : s = 0
    · rw [if_pos h0, h0]
      simp
    · rw [if_neg h0, scanAll_eq (arithFreq input size) (s - 1) (by omega),
        show s - 1 + 1 = s by omega]
  refine ⟨by rw [hform 0 (by omega)]; simp, hform, ?_, rfl, ?_⟩
  · intro s hs
    rw [hform s (by omega), hform (s + 1) (by omega), Finset.sum_range_succ]
    exact Nat.le_add_right _ _
  · have hmass : ∀ t, arithFreq input size t = histF input size t := by
      intro t
      unfold arithFreq
      exact globalFreqMerged_eq_hist _ _ _ _ (List.Perm.refl _)
    rw [Finset.sum_congr rfl (fun t _ => hmass t)]
    unfold histF
    have H : ∀ x ∈ Finset.range size, input x ∈ Finset.range 256 :=
      fun x _ => Finset.mem_range.mpr (hb x)
    rw [← Finset.card_eq_sum_card_fiberwise H, Finset.card_range]

/-- Witness for C4 at the one-byte zero input. -/
theorem cdf_exclusive_prefix_sum_witness :
    arithCDF (fun _ => 0) 1 0 = 0 ∧
    (∀ s, s < 256 →
      arithCDF (fun _ => 0) 1 s = ∑ t ∈ Finset.range s, arithFreq (fun _ => 0) 1 t) ∧
    (∀ s, s + 1 < 256 → arithCDF (fun _ => 0) 1 s ≤ arithCDF (fun _ => 0) 1 (s + 1)) ∧
    arithTotal 1 = 1 ∧
    (∑ t ∈ Finset.range 256, arithFreq (fun _ => 0) 1 t = 1) :=
  cdf_exclusive_prefix_sum (fun _ => 0) 1 (by decide) (fun _ => Nat.succ_pos 255)

/-! ## Chunk partition of encodeBlocks (C6) -/

/-- C6 (refuted): for a 1-byte input the single chunk's loop bound is
`min(start + 4096, numChunks * 4096) = 4096`, not the input length, so the
narrowing loop reads index 4095, far past the end of the input — the final
chunk does not stop at the input's true end. -/
theorem encode_blocks_chunk_end_exceeds_input :
    chunkEndC 1 0 = 4096 ∧ (4095 ∈ chunkReadIndices 1 0) ∧ ¬(4095 < 1) := by
  refine ⟨by decide, ?_, by decide⟩
  unfold chunkReadIndices
  rw [Finset.mem_Ico]
  exact ⟨by decide, by decide⟩

/-! ## E8 lattice root generation (C2, C9) -/

/-- C2 (refuted): the generated root set is degenerate.  Slots 0 and 1 hold
the same vector `(-1, 0, …, 0)`, which has a single nonzero coordinate
rather than two ±1 entries (the pair-index search never fires: the loop
guard `remaining >= 4` precedes the subtraction, so `remaining < 0` is
unreachable and `pairIdx` stays 0, making both sign writes land on
coordinate 0).  In the type-B family, slots 112 and 113 coincide and slot
114 carries exactly one minus sign — an odd number, violating the even-
parity constraint. -/
theorem e8_roots_degenerate_at_slots_zero_one :
    (∀ d, d < 8 → rootVal 0 d = rootVal 1 d) ∧
    rootVal 0 0 = -1 ∧
    (∀ d, d < 8 → 0 < d → rootVal 0 d = 0) ∧
    (∀ d, d < 8 → rootVal 112 d = rootVal 113 d) ∧
    rootVal 114 0 = -(mkRat 1 2) ∧
    (∀ d, d < 8 → 0 < d → rootVal 114 d = mkRat 1 2) := by
  decide

/-- C9: the value written at every root slot is a pure function of the slot
index, so the generated root set is independent of the prior contents of
the roots array (two independent runs agree bit for bit) and running the
generator twice is idempotent. -/
theorem e8_root_generation_deterministic (init₁ init₂ : Nat → ℚ) (k : Nat)
    (hk : k < 1920) :
    initE8Roots init₁ k = initE8Roots init₂ k ∧
    initE8Roots (initE8Roots init₁) k = initE8Roots init₁ k := by
  simp [initE8Roots, hk]

/-- Witness for C9 at flat slot 0 with two different initial arrays. -/
theorem e8_root_generation_deterministic_witness :
    initE8Roots (fun _ => 0) 0 = initE8Roots (fun _ => 37) 0 ∧
    initE8Roots (initE8Roots (fun _ => 0)) 0 = initE8Roots (fun _ => 0) 0 :=
  e8_root_generation_deterministic (fun _ => 0) (fun _ => 37) 0 (by decide)
